import Mathlib

/-
Shallow embedding of the `Collection` class (the membership and
change-notification core of the graph data model) and verification of the
spec's claims about it.

The `Collection` source is translated directly: `cells` is the ordered
sequence, `map` the id-to-entity index (a JavaScript object, modelled as an
association list with unique keys), `length` the cached count, and every
public operation returns the updated state together with the list of events
it triggered, in emission order.

External collaborators (the entity `Cell`, its property `Store`, and
`ArrayExt.sortBy`) are not part of the excerpted source and are modelled from
the spec, as marked on their definitions.
-/

/-- Property data held by an external store: an association list from
property-path keys to integer values. -/
abbrev StoreData := List (String × Int)

/-- Lookup in an association list, mirroring property access on a JavaScript
object (first binding wins; JavaScript objects have unique keys). -/
def assocGet {κ β : Type} [DecidableEq κ] : List (κ × β) → κ → Option β
  | [], _ => none
  | p :: rest, k => if p.1 = k then some p.2 else assocGet rest k

/-- Assignment `obj[k] = v` on a JavaScript object: an existing key keeps its
slot and gets the new value, a new key is appended at the end. -/
def assocSet {κ β : Type} [DecidableEq κ] : List (κ × β) → κ → β → List (κ × β)
  | [], k, v => [(k, v)]
  | p :: rest, k, v => if p.1 = k then (k, v) :: rest else p :: assocSet rest k v

/-- Deletion `delete obj[k]` on a JavaScript object. -/
def assocDelete {κ β : Type} [DecidableEq κ] (m : List (κ × β)) (k : κ) : List (κ × β) :=
  m.filter (fun p => decide (p.1 ≠ k))

/-- Keys whose value differs between two property states (used by the
modelled store's change tracking). -/
def diffKeys (d1 d2 : StoreData) : List String :=
  ((d1.map Prod.fst) ++ (d2.map Prod.fst)).dedup.filter
    (fun k => decide (assocGet d1 k ≠ assocGet d2 k))

/-- Modelled from the spec: the external property store (`store`), a mutable
property bag supporting `get`, `set` and change tracking `hasChanged`.
`data` is the full property data; `changed` records the keys changed by the
most recent `set`. -/
structure Store where
  data : StoreData
  changed : List String
deriving Repr, DecidableEq

/-- Modelled from the spec: `store.set(data, options)` overwriting the
store's full data; the change tracker records which keys changed. -/
def Store.setAll (s : Store) (d : StoreData) : Store :=
  { data := d, changed := diffKeys s.data d }

/-- Modelled from the spec: `store.hasChanged(key)`. -/
def Store.hasChanged (s : Store) (k : String) : Bool :=
  s.changed.contains k

/-- Modelled from the spec: an entity (`Cell`), a uniquely identified graph
element with a mutable property store. `store` is the identity (reference)
of its store object in the store heap. -/
structure Cell where
  id : String
  store : Nat
deriving Repr, DecidableEq

/-- Options accepted by `add` (`Collection.AddOptions`); each field is
`none` when the key is absent from the options object. -/
structure AddOptions where
  merge : Option Bool
  silent : Option Bool
  sort : Option Bool
deriving Repr, DecidableEq

/-- Options accepted by `reset`/`sort` (`Collection.SetOptions`). -/
structure SetOptions where
  silent : Option Bool
deriving Repr, DecidableEq

/-- Options accepted by `remove` (`Collection.RemoveOptions`);
`disconnectEdges` is carried but unused by the excerpted code. -/
structure RemoveOptions where
  silent : Option Bool
  disconnectEdges : Option Bool
deriving Repr, DecidableEq

/-- The normalized options computed by `add` as
`localOptions = { merge: false, ...options }`, with the truthiness of the
`silent` key resolved and the raw `sort` key kept (the code tests
`sort !== false`). -/
structure LocalOptions where
  merge : Bool
  silent : Bool
  sort : Option Bool
deriving Repr, DecidableEq

/-- Spread `{ merge: false, ...options }` over a possibly-absent options
object. -/
def mkLocal (o : Option AddOptions) : LocalOptions :=
  { merge := (o.bind AddOptions.merge).getD false
    silent := (o.bind AddOptions.silent).getD false
    sort := o.bind AddOptions.sort }

/-- The collection's comparator: a two-argument ordering function, a single
property-path key, or an ordered list of keys. -/
inductive Comparator where
  | byFn (f : Cell → Cell → Int)
  | byKey (key : String)
  | byKeys (keys : List String)

/-- The code's merge-triggered re-sort test
`existing.store.hasChanged(sortAttr)` where `sortAttr` is the comparator.
Modelled from the spec for the non-string comparator shapes. -/
def hasChangedCmp (s : Store) : Option Comparator → Bool
  | none => false
  | some (.byFn _) => false
  | some (.byKey k) => s.hasChanged k
  | some (.byKeys ks) => ks.any s.hasChanged

/-- Record of one `store.set` invocation performed by a merge, including the
options value the code forwarded to it. -/
structure SetCall where
  storeRef : Nat
  data : StoreData
  options : Option AddOptions
deriving Repr, DecidableEq

/-- Events triggered by the collection, in emission order. -/
inductive Event where
  | add (cell : Cell) (index : Int) (options : LocalOptions)
  | remove (cell : Cell) (index : Int)
  | sort
  | reset (previous current : List Cell)
  | update (added merged removed : List Cell)
deriving Repr, DecidableEq

/-- Whether an event is a per-entity `add` event. -/
def Event.isAdd : Event → Bool
  | .add _ _ _ => true
  | _ => false

/-- Whether an event is a per-entity `remove` event. -/
def Event.isRemove : Event → Bool
  | .remove _ _ => true
  | _ => false

/-- Whether an event is a `sort` event. -/
def Event.isSort : Event → Bool
  | .sort => true
  | _ => false

/-- Whether an event is a `reset` event. -/
def Event.isReset : Event → Bool
  | .reset _ _ => true
  | _ => false

/-- Whether an event is an aggregate `update` event. -/
def Event.isUpdate : Event → Bool
  | .update _ _ _ => true
  | _ => false

/-- The collection state: ordered `cells`, the id-to-entity `map`, the cached
`length` (a JavaScript number, so an integer), the configured comparator, and
the shared mutable world the collection touches: the heap of store objects
(addressed by store reference) and the log of `store.set` calls issued by
merges. -/
structure Collection where
  length : Int
  cells : List Cell
  map : List (String × Cell)
  comparator : Option Comparator
  heap : List (Nat × Store)
  setLog : List SetCall

/-- Read a store object from the heap (dereference a store reference). -/
def heapGetD (h : List (Nat × Store)) (r : Nat) : Store :=
  (assocGet h r).getD ⟨[], []⟩

/-- The effective start position of JavaScript `array.splice`: a negative
start counts from the end (clamped to 0), a start beyond the length is
clamped to the length. -/
def spliceStart (len : Nat) (start : Int) : Nat :=
  if start < 0 then ((len : Int) + start).toNat else min start.toNat len

/-- JavaScript `array.splice(start, 0, ...items)`. -/
def spliceInsert {α : Type} (l : List α) (start : Int) (items : List α) : List α :=
  l.take (spliceStart l.length start) ++ (items ++ l.drop (spliceStart l.length start))

/-- JavaScript `array.splice(start, 1)`. -/
def spliceRemove {α : Type} (l : List α) (start : Int) : List α :=
  l.take (spliceStart l.length start) ++ l.drop (spliceStart l.length start + 1)

/-- JavaScript `array.indexOf(x)`: index of the first occurrence, `-1` when
absent. -/
def indexOfCell (x : Cell) : List Cell → Int
  | [] => -1
  | y :: ys =>
    if y = x then 0
    else
      let r := indexOfCell x ys
      if r < 0 then -1 else r + 1

/-- Lexicographic ascending comparison of resolved key tuples. -/
def lexLe : List Int → List Int → Bool
  | [], _ => true
  | _ :: _, [] => false
  | a :: as, b :: bs => if a < b then true else if b < a then false else lexLe as bs

/-- Insert an element into a list just before the first element it compares
at-or-below, the inner step of a stable insertion sort. -/
def orderedInsertB {α : Type} (le : α → α → Bool) (x : α) : List α → List α
  | [] => [x]
  | y :: ys => if le x y then x :: y :: ys else y :: orderedInsertB le x ys

/-- Modelled from the spec: a stable ascending sort (the external
`ArrayExt.sortBy` and the ES2019-stable `Array.prototype.sort`), realised as
insertion sort, which is stable. -/
def stableSortB {α : Type} (le : α → α → Bool) : List α → List α
  | [] => []
  | x :: xs => orderedInsertB le x (stableSortB le xs)

/-- Modelled from the spec: resolution of a property path on an entity (the
value stored under that key in the entity's store; absent keys resolve to 0). -/
def cellKey (h : List (Nat × Store)) (cell : Cell) (k : String) : Int :=
  ((heapGetD h cell.store).data.lookup k).getD 0

/-- Resolved key tuple of an entity for a multi-key comparator. -/
def cellKeys (h : List (Nat × Store)) (ks : List String) (cell : Cell) : List Int :=
  ks.map (cellKey h cell)

/-- The comparison used by `sort` for a comparator: a function comparator is
applied directly (`fn(a,b) <= 0` puts `a` first), key comparators compare
resolved key tuples lexicographically. -/
def cmpLe (h : List (Nat × Store)) : Comparator → Cell → Cell → Bool
  | .byFn f, a, b => decide (f a b ≤ 0)
  | .byKey k, a, b => lexLe (cellKeys h [k] a) (cellKeys h [k] b)
  | .byKeys ks, a, b => lexLe (cellKeys h ks a) (cellKeys h ks b)

/-- Reorder the cells according to the comparator. -/
def sortCells (h : List (Nat × Store)) (cmp : Comparator) (l : List Cell) : List Cell :=
  stableSortB (cmpLe h cmp) l

/-- `get(id)`: O(1) index lookup, `null` for an unknown id. -/
def Collection.get (c : Collection) (id : String) : Option Cell :=
  assocGet c.map id

/-- `get(obj)` where `obj` may be `null` (as in `pop`/`shift` on an empty
collection): `null` in, `null` out; otherwise lookup by the entity's id. -/
def Collection.getObj (c : Collection) : Option Cell → Option Cell
  | none => none
  | some cell => c.get cell.id

/-- `at(index)`: a negative index is shifted by `length`; an index that is
still out of range yields `null`. -/
def Collection.atIndex (c : Collection) (index : Int) : Option Cell :=
  let i := if index < 0 then index + c.length else index
  if i < 0 then none else c.cells.get? i.toNat

/-- `first()`. -/
def Collection.first (c : Collection) : Option Cell :=
  c.atIndex 0

/-- `last()`. -/
def Collection.last (c : Collection) : Option Cell :=
  c.atIndex (-1)

/-- `sort(options)`: a no-op without a comparator; otherwise reorder and,
unless silent, trigger a `sort` event. -/
def Collection.sort (c : Collection) (opts : SetOptions) : Collection × List Event :=
  match c.comparator with
  | none => (c, [])
  | some cmp =>
    ({ c with cells := sortCells c.heap cmp c.cells },
      if opts.silent.getD false then [] else [Event.sort])

/-- The second/third arguments of `add`: either an explicit numeric index
with an optional options object after it, or no numeric index, in which case
the second parameter slot holds the (possibly absent) options object. -/
inductive AddArg where
  | withIndex (index : Int) (options : Option AddOptions)
  | noIndex (options : Option AddOptions)

/-- The options object `add` normalizes into `localOptions`. -/
def AddArg.rawOptions : AddArg → Option AddOptions
  | .withIndex _ o => o
  | .noIndex o => o

/-- The `localOptions` computed by `add`. -/
def AddArg.localOptions (arg : AddArg) : LocalOptions :=
  mkLocal arg.rawOptions

/-- The raw third parameter `options`, which the code forwards to the merge
(`store.set`): present only in the explicit-index call shape; when the
options object was passed in the index slot, the third parameter is
`undefined`. -/
def AddArg.passThrough : AddArg → Option AddOptions
  | .withIndex _ o => o
  | .noIndex _ => none

/-- The code's `index == null` test on the second parameter: false for a
numeric index and also false when an options object occupies the index slot. -/
def AddArg.indexIsNull : AddArg → Bool
  | .withIndex _ _ => false
  | .noIndex o => o.isNone

/-- The raw index value `add` starts from: the explicit index, or `length`
when no numeric index was given. -/
def AddArg.rawIndex (len : Int) : AddArg → Int
  | .withIndex i _ => i
  | .noIndex _ => len

/-- Index resolution in `add`: clamp to `length` from above, then shift a
negative index by `length + 1`. -/
def resolveAddIndex (len : Int) (arg : AddArg) : Int :=
  let i0 := arg.rawIndex len
  let i1 := if i0 > len then len else i0
  if i1 < 0 then i1 + len + 1 else i1

/-- Result of the per-entity partition loop of `add`. -/
structure AddLoopResult where
  state : Collection
  added : List Cell
  merged : List Cell
  sortFlag : Bool

/-- The partition loop of `add`: each input entity is looked up in the
current `map`; an absent entity is queued in `added` and referenced
(`map[id] = cell`); a present entity is merged when the `merge` option is set
and the incoming store is a distinct instance, overwriting the existing
store's data in place, logging the `store.set` call with the forwarded
options, and scheduling a re-sort when a comparator key changed. -/
def addLoop (pt : Option AddOptions) (lo : LocalOptions) (sortable : Bool)
    (cmp : Option Comparator) : Collection → List Cell → AddLoopResult
  | c, [] => ⟨c, [], [], false⟩
  | c, cell :: rest =>
    match c.get cell.id with
    | some existing =>
      if lo.merge ∧ cell.store ≠ existing.store then
        let incoming := heapGetD c.heap cell.store
        let newStore := (heapGetD c.heap existing.store).setAll incoming.data
        let c' : Collection :=
          { c with heap := assocSet c.heap existing.store newStore
                   setLog := c.setLog ++ [⟨existing.store, incoming.data, pt⟩] }
        let sNow := sortable && hasChangedCmp newStore cmp
        let r := addLoop pt lo sortable cmp c' rest
        ⟨r.state, r.added, existing :: r.merged, sNow || r.sortFlag⟩
      else
        addLoop pt lo sortable cmp c rest
    | none =>
      let c' : Collection := { c with map := assocSet c.map cell.id cell }
      let r := addLoop pt lo sortable cmp c' rest
      ⟨r.state, cell :: r.added, r.merged, r.sortFlag⟩

/-- The `sortable` flag of `add`: a comparator is configured, the second
parameter is `null`/`undefined`, and the `sort` option is not `false`. -/
def addSortable (c : Collection) (arg : AddArg) : Bool :=
  c.comparator.isSome && arg.indexIsNull && !(arg.localOptions.sort == some false)

/-- The partition loop of `add` run with the arguments `add` gives it. -/
def addLoopRun (c : Collection) (inputs : List Cell) (arg : AddArg) : AddLoopResult :=
  addLoop arg.passThrough arg.localOptions (addSortable c arg) c.comparator c inputs

/-- The state of the collection after the partition loop and the splice of
the newly added entities (`length` is refreshed from the spliced sequence). -/
def addSplice (c : Collection) (inputs : List Cell) (arg : AddArg) : Collection :=
  let r := addLoopRun c inputs arg
  if r.added = [] then r.state
  else
    let newCells := spliceInsert r.state.cells (resolveAddIndex c.length arg) r.added
    { r.state with cells := newCells, length := (newCells.length : Int) }

/-- The final value of `add`'s `sort` flag: forced when something was
inserted and the call is sortable, otherwise whatever the merge steps set. -/
def addSortFlag (c : Collection) (inputs : List Cell) (arg : AddArg) : Bool :=
  (decide ((addLoopRun c inputs arg).added ≠ []) && addSortable c arg)
    || (addLoopRun c inputs arg).sortFlag

/-- The events `add` triggers: nothing when silent; otherwise one `add` event
per newly inserted entity at `localIndex + i`, then a `sort` event when a
sort occurred, then one aggregate `update` event when anything was added or
merged. -/
def addEvents (c : Collection) (inputs : List Cell) (arg : AddArg) : List Event :=
  let lo := arg.localOptions
  let r := addLoopRun c inputs arg
  let localIndex := resolveAddIndex c.length arg
  if lo.silent then []
  else
    (r.added.enum.map (fun p => Event.add p.2 (localIndex + (p.1 : Int)) lo))
      ++ (if addSortFlag c inputs arg then [Event.sort] else [])
      ++ (if r.added = [] ∧ r.merged = [] then [] else [Event.update r.added r.merged []])

/-- `add(cells, index?, options?)`: resolve the index, partition the input
into newly added and merged entities, splice the added ones in, re-sort
silently when scheduled, and trigger the event sequence. -/
def Collection.add (c : Collection) (inputs : List Cell) (arg : AddArg) :
    Collection × List Event :=
  (if addSortFlag c inputs arg then (Collection.sort (addSplice c inputs arg) ⟨some true⟩).1
    else addSplice c inputs arg,
   addEvents c inputs arg)

/-- The protected `removeCells` loop: each input is resolved via `get`
(absent or `null` entries are skipped), then spliced out of `cells`, removed
from `map`, counted out of `length`, collected into the removed list, and
(unless silent) a per-entity `remove` event fires with the index the entity
had before its removal. -/
def Collection.removeCells (opts : RemoveOptions) :
    Collection → List (Option Cell) → Collection × List Event × List Cell
  | c, [] => (c, [], [])
  | c, x :: xs =>
    match c.getObj x with
    | none => Collection.removeCells opts c xs
    | some cell =>
      let idx := indexOfCell cell c.cells
      let c' : Collection :=
        { c with cells := spliceRemove c.cells idx
                 length := c.length - 1
                 map := assocDelete c.map cell.id }
      let r := Collection.removeCells opts c' xs
      (r.1,
        (if opts.silent.getD false then [] else [Event.remove cell idx]) ++ r.2.1,
        cell :: r.2.2)

/-- `remove(cell, options)` on a single (possibly `null`) entity: returns the
removed entity, or `undefined` (here `none`) when it was absent; fires one
aggregate `update` event when something was removed and the call is not
silent. -/
def Collection.remove (c : Collection) (x : Option Cell) (opts : RemoveOptions) :
    Collection × List Event × Option Cell :=
  let r := Collection.removeCells opts c [x]
  (r.1,
    r.2.1 ++ (if ¬ opts.silent.getD false ∧ 0 < r.2.2.length then [Event.update [] [] r.2.2] else []),
    r.2.2.head?)

/-- `remove(cells, options)` on a list: returns the list of entities actually
removed. -/
def Collection.removeMany (c : Collection) (xs : List Cell) (opts : RemoveOptions) :
    Collection × List Event × List Cell :=
  let r := Collection.removeCells opts c (xs.map some)
  (r.1,
    r.2.1 ++ (if ¬ opts.silent.getD false ∧ 0 < r.2.2.length then [Event.update [] [] r.2.2] else []),
    r.2.2)

/-- `reset(cells, options)`: snapshot the previous sequence, clear the state,
re-add the new content through `add` with options `{ silent: true,
...options }` (so the bulk insert is silent by default but follows the
caller's explicit `silent` key), and, unless the caller passed a truthy
`silent`, trigger one `reset` event with the previous and current snapshots. -/
def Collection.reset (c : Collection) (cells : List Cell) (options : SetOptions) :
    Collection × List Event :=
  let previous := c.cells
  let c0 : Collection := { c with length := 0, cells := [], map := [] }
  let addOpts : AddOptions :=
    { merge := none, silent := some (options.silent.getD true), sort := none }
  let r := Collection.add c0 cells (.noIndex (some addOpts))
  (r.1, r.2 ++ (if options.silent.getD false then [] else [Event.reset previous r.1.cells]))

/-- `push(cell, options)`: `add` at index `length`. -/
def Collection.push (c : Collection) (cell : Cell) (opts : Option AddOptions) :
    Collection × List Event :=
  Collection.add c [cell] (.withIndex c.length opts)

/-- `unshift(cell, options)`: `add` at index 0. -/
def Collection.unshift (c : Collection) (cell : Cell) (opts : Option AddOptions) :
    Collection × List Event :=
  Collection.add c [cell] (.withIndex 0 opts)

/-- `pop(options)`: remove the entity at `length - 1` (a `null` lookup on an
empty collection flows into `remove`). -/
def Collection.pop (c : Collection) (opts : RemoveOptions) :
    Collection × List Event × Option Cell :=
  Collection.remove c (c.atIndex (c.length - 1)) opts

/-- `shift(options)`: remove the entity at index 0. -/
def Collection.shift (c : Collection) (opts : RemoveOptions) :
    Collection × List Event × Option Cell :=
  Collection.remove c (c.atIndex 0) opts

/-- The constructor: clean state, then a silent `reset` with the initial
content. -/
def mkCollection (cells : List Cell) (comparator : Option Comparator)
    (heap : List (Nat × Store)) : Collection :=
  let base : Collection :=
    { length := 0, cells := [], map := [], comparator := comparator
      heap := heap, setLog := [] }
  (Collection.reset base cells ⟨some true⟩).1

/-- A public mutating operation on the collection. -/
inductive Op where
  | addMany (cells : List Cell) (arg : AddArg)
  | removeOne (cell : Option Cell) (opts : RemoveOptions)
  | removeMany (cells : List Cell) (opts : RemoveOptions)
  | resetTo (cells : List Cell) (opts : SetOptions)
  | pushOp (cell : Cell) (opts : Option AddOptions)
  | popOp (opts : RemoveOptions)
  | unshiftOp (cell : Cell) (opts : Option AddOptions)
  | shiftOp (opts : RemoveOptions)
  | sortOp (opts : SetOptions)

/-- Run one public operation, keeping the resulting state. -/
def applyOp (c : Collection) : Op → Collection
  | .addMany cells arg => (c.add cells arg).1
  | .removeOne cell opts => (c.remove cell opts).1
  | .removeMany cells opts => (c.removeMany cells opts).1
  | .resetTo cells opts => (c.reset cells opts).1
  | .pushOp cell opts => (c.push cell opts).1
  | .popOp opts => (c.pop opts).1
  | .unshiftOp cell opts => (c.unshift cell opts).1
  | .shiftOp opts => (c.shift opts).1
  | .sortOp opts => (c.sort opts).1

/-- Run a sequence of public operations. -/
def runOps (c : Collection) (ops : List Op) : Collection :=
  ops.foldl applyOp c

/-- The id-to-entity bindings induced by a cell sequence. -/
def cellBindings (cells : List Cell) : List (String × Cell) :=
  cells.map (fun x => (x.id, x))

/-- The internal consistency invariant: cell ids are pairwise distinct, the
index holds exactly the bindings of the sequence, and the cached length
matches. -/
def Collection.Inv (c : Collection) : Prop :=
  (c.cells.map Cell.id).Nodup ∧
  c.map.Perm (cellBindings c.cells) ∧
  c.length = (c.cells.length : Int)

/-- Sample entity used to exercise the operations on concrete inputs. -/
def aCell : Cell := ⟨"a", 0⟩

/-- Sample entity. -/
def bCell : Cell := ⟨"b", 1⟩

/-- Sample entity. -/
def xCell : Cell := ⟨"x", 2⟩

/-- Sample store heap with two distinct store instances sharing a key. -/
def sampleHeap : List (Nat × Store) := [(0, ⟨[("k", 1)], []⟩), (1, ⟨[("k", 2)], []⟩)]

/-- Sample store heap carrying a `z` ordering key, with a tie between the
stores of `bCell` and `xCell`. -/
def zHeap : List (Nat × Store) :=
  [(0, ⟨[("z", 2)], []⟩), (1, ⟨[("z", 1)], []⟩), (2, ⟨[("z", 1)], []⟩)]

/-- A freshly constructed empty collection. -/
def cEmpty : Collection := mkCollection [] none []

/-- A collection holding `aCell` then `bCell`, no comparator. -/
def cAB : Collection := mkCollection [aCell, bCell] none []

/-- A collection holding `aCell` over the two-store heap. -/
def cA : Collection := mkCollection [aCell] none sampleHeap

/-- A collection with a single-key comparator on `z` and a key tie. -/
def cZ : Collection := mkCollection [aCell, bCell, xCell] (some (.byKey "z")) zHeap

/-- The options object used in the merge scenarios. -/
def mOpts : AddOptions := ⟨some true, some true, none⟩

/-! ### Association list lemmas -/

theorem assocGet_eq_none {κ β : Type} [DecidableEq κ] (m : List (κ × β)) (k : κ) :
    assocGet m k = none ↔ k ∉ m.map Prod.fst := by
  induction m with
  | nil => simp [assocGet]
  | cons p rest ih =>
    simp only [assocGet, List.map_cons, List.mem_cons]
    by_cases h : p.1 = k
    · simp [h]
    · simp only [h, if_false, ih]
      constructor
      · intro hn
        push_neg
        exact ⟨fun hk => h hk.symm, hn⟩
      · intro hn
        push_neg at hn
        exact hn.2

theorem assocGet_mem {κ β : Type} [DecidableEq κ] {m : List (κ × β)} {k : κ} {v : β}
    (h : assocGet m k = some v) : (k, v) ∈ m := by
  induction m with
  | nil => simp [assocGet] at h
  | cons p rest ih =>
    by_cases hp : p.1 = k
    · simp [assocGet, hp] at h
      subst hp; rw [← h]
      exact List.mem_cons_self _ _
    · simp [assocGet, hp] at h
      exact List.mem_cons_of_mem _ (ih h)

theorem assocGet_of_mem_nodup {κ β : Type} [DecidableEq κ] {m : List (κ × β)} {k : κ} {v : β}
    (hnd : (m.map Prod.fst).Nodup) (hmem : (k, v) ∈ m) : assocGet m k = some v := by
  induction m with
  | nil => simp at hmem
  | cons p rest ih =>
    simp only [List.map_cons, List.nodup_cons] at hnd
    rcases List.mem_cons.mp hmem with h | h
    · rw [← h]; simp [assocGet]
    · have hk : p.1 ≠ k := by
        intro hpk
        apply hnd.1
        have hm : (k, v).1 ∈ List.map Prod.fst rest := List.mem_map_of_mem Prod.fst h
        rw [hpk]
        exact hm
      simp [assocGet, hk, ih hnd.2 h]

theorem assocSet_of_absent {κ β : Type} [DecidableEq κ] {m : List (κ × β)} {k : κ} (v : β)
    (h : assocGet m k = none) : assocSet m k v = m ++ [(k, v)] := by
  induction m with
  | nil => simp [assocSet]
  | cons p rest ih =>
    by_cases hp : p.1 = k
    · simp [assocGet, hp] at h
    · simp [assocGet, hp] at h
      simp [assocSet, hp, ih h]

theorem assocGet_append {κ β : Type} [DecidableEq κ] (m₁ m₂ : List (κ × β)) (k : κ) :
    assocGet (m₁ ++ m₂) k =
      match assocGet m₁ k with
      | some v => some v
      | none => assocGet m₂ k := by
  induction m₁ with
  | nil => simp [assocGet]
  | cons p rest ih =>
    by_cases hp : p.1 = k <;> simp [assocGet, hp, ih]

/-! ### Splice and indexOf lemmas -/

theorem perm_append_swap {α : Type} (x y z : List α) :
    (x ++ (y ++ z)).Perm (y ++ (x ++ z)) := by
  rw [← List.append_assoc, ← List.append_assoc]
  exact List.Perm.append_right z List.perm_append_comm

theorem spliceInsert_perm {α : Type} (l : List α) (start : Int) (items : List α) :
    (spliceInsert l start items).Perm (items ++ l) := by
  unfold spliceInsert
  have h := perm_append_swap (l.take (spliceStart l.length start)) items
    (l.drop (spliceStart l.length start))
  rw [List.take_append_drop] at h
  exact h

theorem indexOfCell_spec {x : Cell} {l : List Cell} (h : x ∈ l) :
    0 ≤ indexOfCell x l ∧ (indexOfCell x l).toNat < l.length ∧
      l.get? (indexOfCell x l).toNat = some x := by
  induction l with
  | nil => simp at h
  | cons y ys ih =>
    by_cases hy : y = x
    · subst hy
      refine ⟨by simp [indexOfCell], ?_, ?_⟩ <;> simp [indexOfCell]
    · have hmem : x ∈ ys := by
        rcases List.mem_cons.mp h with h' | h'
        · exact absurd h'.symm hy
        · exact h'
      obtain ⟨h0, hlt, hget⟩ := ih hmem
      have hneg : ¬ indexOfCell x ys < 0 := not_lt.mpr h0
      refine ⟨?_, ?_, ?_⟩
      · simp only [indexOfCell, hy, if_false, hneg]
        omega
      · simp only [indexOfCell, hy, if_false, hneg, List.length_cons]
        omega
      · simp only [indexOfCell, hy, if_false, hneg]
        have ht : (indexOfCell x ys + 1).toNat = (indexOfCell x ys).toNat + 1 := by omega
        rw [ht]
        simpa using hget

theorem spliceRemove_of_found {α : Type} {l : List α} {n : Int}
    (h0 : 0 ≤ n) (hlt : n.toNat < l.length) :
    spliceRemove l n = l.take n.toNat ++ l.drop (n.toNat + 1) := by
  unfold spliceRemove spliceStart
  have h1 : ¬ n < 0 := not_lt.mpr h0
  simp only [h1, if_false]
  rw [min_eq_left (le_of_lt hlt)]

theorem cons_splice_perm {α : Type} {l : List α} {n : Nat} {x : α}
    (hget : l.get? n = some x) :
    (x :: (l.take n ++ l.drop (n + 1))).Perm l := by
  have hlt : n < l.length := by
    by_contra hge
    rw [List.get?_eq_none.mpr (le_of_not_lt hge)] at hget
    exact Option.noConfusion hget
  have hx : l[n] = x := by
    rw [List.get?_eq_getElem? l n, List.getElem?_eq_getElem hlt] at hget
    exact Option.some.inj hget
  have hdrop : l.drop n = x :: l.drop (n + 1) := by
    rw [List.drop_eq_getElem_cons hlt, hx]
  have h1 : (l.take n ++ (x :: l.drop (n + 1))).Perm (x :: (l.take n ++ l.drop (n + 1))) :=
    List.perm_middle
  have h2 : l.take n ++ (x :: l.drop (n + 1)) = l := by
    rw [← hdrop, List.take_append_drop]
  rw [h2] at h1
  exact h1.symm

/-! ### Stable sort lemmas -/

theorem orderedInsertB_perm {α : Type} (le : α → α → Bool) (x : α) (l : List α) :
    (orderedInsertB le x l).Perm (x :: l) := by
  induction l with
  | nil => exact List.Perm.refl _
  | cons y ys ih =>
    by_cases h : le x y
    · simp [orderedInsertB, h]
    · simp only [orderedInsertB, h, if_false]
      exact (ih.cons y).trans (List.Perm.swap x y ys)

theorem stableSortB_perm {α : Type} (le : α → α → Bool) (l : List α) :
    (stableSortB le l).Perm l := by
  induction l with
  | nil => exact List.Perm.refl _
  | cons x xs ih =>
    exact (orderedInsertB_perm le x (stableSortB le xs)).trans (ih.cons x)

theorem mem_orderedInsertB {α : Type} {le : α → α → Bool} {x z : α} {l : List α}
    (h : z ∈ orderedInsertB le x l) : z = x ∨ z ∈ l := by
  have := (orderedInsertB_perm le x l).mem_iff.mp h
  simpa using this

theorem orderedInsertB_pairwise {α : Type} {le : α → α → Bool}
    (htot : ∀ a b, le a b = true ∨ le b a = true)
    (htrans : ∀ a b c, le a b = true → le b c = true → le a c = true)
    {x : α} {l : List α} (hl : l.Pairwise (fun a b => le a b = true)) :
    (orderedInsertB le x l).Pairwise (fun a b => le a b = true) := by
  induction l with
  | nil => simp [orderedInsertB]
  | cons y ys ih =>
    rcases List.pairwise_cons.mp hl with ⟨hy, hys⟩
    by_cases h : le x y
    · simp only [orderedInsertB, h, if_true]
      refine List.pairwise_cons.mpr ⟨?_, hl⟩
      intro z hz
      rcases List.mem_cons.mp hz with hz | hz
      · rw [hz]; exact h
      · exact htrans x y z h (hy z hz)
    · simp only [orderedInsertB, h, if_false]
      refine List.pairwise_cons.mpr ⟨?_, ih hys⟩
      intro z hz
      rcases mem_orderedInsertB hz with hz | hz
      · rw [hz]
        rcases htot x y with h' | h'
        · exact absurd h' h
        · exact h'
      · exact hy z hz

theorem stableSortB_pairwise {α : Type} {le : α → α → Bool}
    (htot : ∀ a b, le a b = true ∨ le b a = true)
    (htrans : ∀ a b c, le a b = true → le b c = true → le a c = true)
    (l : List α) :
    (stableSortB le l).Pairwise (fun a b => le a b = true) := by
  induction l with
  | nil => simp [stableSortB]
  | cons x xs ih => exact orderedInsertB_pairwise htot htrans ih

theorem filter_orderedInsertB_neg {α : Type} {le : α → α → Bool} {p : α → Bool}
    {x : α} (hx : p x = false) (l : List α) :
    (orderedInsertB le x l).filter p = l.filter p := by
  induction l with
  | nil => simp [orderedInsertB, hx]
  | cons y ys ih =>
    by_cases h : le x y
    · simp [orderedInsertB, h, List.filter_cons, hx]
    · simp [orderedInsertB, h, List.filter_cons, ih]

theorem filter_orderedInsertB_pos {α : Type} {le : α → α → Bool} {p : α → Bool}
    {x : α} (hx : p x = true)
    (hle : ∀ z, p z = true → le x z = true) (l : List α) :
    (orderedInsertB le x l).filter p = x :: l.filter p := by
  induction l with
  | nil => simp [orderedInsertB, hx]
  | cons y ys ih =>
    by_cases h : le x y
    · simp [orderedInsertB, h, List.filter_cons, hx]
    · have hy : p y = false := by
        by_contra hpy
        exact h (hle y (by simpa using hpy))
      simp [orderedInsertB, h, List.filter_cons, hy, ih]

theorem stableSortB_filter {α : Type} {le : α → α → Bool} {p : α → Bool}
    (hle : ∀ y z, p y = true → p z = true → le y z = true) (l : List α) :
    (stableSortB le l).filter p = l.filter p := by
  induction l with
  | nil => simp [stableSortB]
  | cons x xs ih =>
    show (orderedInsertB le x (stableSortB le xs)).filter p = _
    by_cases hx : p x
    · rw [filter_orderedInsertB_pos hx (fun z hz => hle x z hx hz), ih,
        List.filter_cons, hx]
      simp
    · rw [filter_orderedInsertB_neg (by simpa using hx), ih, List.filter_cons]
      simp [hx]

/-! ### Lexicographic key-order lemmas -/

theorem lexLe_refl (l : List Int) : lexLe l l = true := by
  induction l with
  | nil => simp [lexLe]
  | cons a as ih => simp [lexLe, ih]

theorem lexLe_total (l₁ l₂ : List Int) : lexLe l₁ l₂ = true ∨ lexLe l₂ l₁ = true := by
  induction l₁ generalizing l₂ with
  | nil => left; simp [lexLe]
  | cons a as ih =>
    cases l₂ with
    | nil => right; simp [lexLe]
    | cons b bs =>
      by_cases hab : a < b
      · left; simp [lexLe, hab]
      · by_cases hba : b < a
        · right; simp [lexLe, hba]
        · have : ¬ b < a := hba
          rcases ih bs with h | h
          · left; simp [lexLe, hab, hba, h]
          · right; simp [lexLe, hab, hba, h]

theorem lexLe_trans {l₁ l₂ l₃ : List Int}
    (h₁ : lexLe l₁ l₂ = true) (h₂ : lexLe l₂ l₃ = true) : lexLe l₁ l₃ = true := by
  induction l₁ generalizing l₂ l₃ with
  | nil => simp [lexLe]
  | cons a as ih =>
    cases l₂ with
    | nil => simp [lexLe] at h₁
    | cons b bs =>
      cases l₃ with
      | nil => simp [lexLe] at h₂
      | cons c cs =>
        simp only [lexLe] at h₁ h₂ ⊢
        by_cases hab : a < b
        · by_cases hbc : b < c
          · have : a < c := lt_trans hab hbc
            simp [this]
          · by_cases hcb : c < b
            · simp [hab, hbc, hcb] at h₂
            · have hbceq : b = c := by omega
              subst hbceq
              simp [hab]
        · by_cases hba : b < a
          · simp [hab, hba] at h₁
          · have habeq : a = b := by omega
            subst habeq
            by_cases hac : a < c
            · simp [hac]
            · by_cases hca : c < a
              · simp [hac, hca] at h₂
              · simp only [hab, hba, if_false] at h₁
                simp only [hac, hca, if_false] at h₂ ⊢
                exact ih h₁ h₂

/-! ### Invariant machinery -/

theorem cellBindings_map_fst (l : List Cell) :
    (cellBindings l).map Prod.fst = l.map Cell.id := by
  simp [cellBindings, Function.comp]

theorem cellBindings_append (l₁ l₂ : List Cell) :
    cellBindings (l₁ ++ l₂) = cellBindings l₁ ++ cellBindings l₂ := by
  simp [cellBindings]

theorem cellBindings_length (l : List Cell) :
    (cellBindings l).length = l.length := by
  simp [cellBindings]

theorem inv_map_keys_nodup {c : Collection} (h : c.Inv) :
    (c.map.map Prod.fst).Nodup := by
  have hperm : (c.map.map Prod.fst).Perm ((cellBindings c.cells).map Prod.fst) :=
    h.2.1.map Prod.fst
  rw [cellBindings_map_fst] at hperm
  exact (List.Perm.nodup_iff hperm).mpr h.1

theorem inv_get_iff {c : Collection} (h : c.Inv) (id : String) (e : Cell) :
    c.get id = some e ↔ e ∈ c.cells ∧ e.id = id := by
  constructor
  · intro hg
    have hmem : (id, e) ∈ c.map := assocGet_mem hg
    have hmem' : (id, e) ∈ cellBindings c.cells := h.2.1.mem_iff.mp hmem
    simp only [cellBindings, List.mem_map] at hmem'
    obtain ⟨x, hx, hxe⟩ := hmem'
    have h1 : x.id = id := congrArg Prod.fst hxe
    have h2 : x = e := congrArg Prod.snd hxe
    subst h2
    exact ⟨hx, h1⟩
  · rintro ⟨hmem, hid⟩
    have hb : (id, e) ∈ cellBindings c.cells := by
      simp only [cellBindings, List.mem_map]
      exact ⟨e, hmem, by rw [hid]⟩
    have hmem' : (id, e) ∈ c.map := h.2.1.mem_iff.mpr hb
    exact assocGet_of_mem_nodup (inv_map_keys_nodup h) hmem'

theorem inv_get_eq_none {c : Collection} (h : c.Inv) (id : String) :
    c.get id = none ↔ id ∉ c.cells.map Cell.id := by
  unfold Collection.get
  rw [assocGet_eq_none]
  constructor
  · intro hn hmem
    apply hn
    have hperm : (c.map.map Prod.fst).Perm (c.cells.map Cell.id) := by
      have := h.2.1.map Prod.fst
      rwa [cellBindings_map_fst] at this
    exact hperm.mem_iff.mpr hmem
  · intro hn hmem
    apply hn
    have hperm : (c.map.map Prod.fst).Perm (c.cells.map Cell.id) := by
      have := h.2.1.map Prod.fst
      rwa [cellBindings_map_fst] at this
    exact hperm.mem_iff.mp hmem

theorem sort_fst_fields (c : Collection) (opts : SetOptions) :
    ((c.sort opts).1.map = c.map ∧ (c.sort opts).1.length = c.length ∧
      (c.sort opts).1.comparator = c.comparator ∧ (c.sort opts).1.heap = c.heap ∧
      (c.sort opts).1.setLog = c.setLog) ∧
      ((c.sort opts).1.cells).Perm c.cells := by
  unfold Collection.sort
  cases hc : c.comparator with
  | none => exact ⟨⟨rfl, rfl, hc, rfl, rfl⟩, List.Perm.refl _⟩
  | some cmp =>
    refine ⟨⟨rfl, rfl, rfl, rfl, rfl⟩, ?_⟩
    exact stableSortB_perm _ _

theorem sort_inv {c : Collection} (h : c.Inv) (opts : SetOptions) :
    ((c.sort opts).1).Inv := by
  obtain ⟨⟨hmap, hlen, _, _, _⟩, hperm⟩ := sort_fst_fields c opts
  refine ⟨?_, ?_, ?_⟩
  · exact ((hperm.map Cell.id).nodup_iff).mpr h.1
  · rw [hmap]
    have h2 : (cellBindings (c.sort opts).1.cells).Perm (cellBindings c.cells) := by
      unfold cellBindings
      exact hperm.map _
    exact h.2.1.trans h2.symm
  · rw [hlen, h.2.2, hperm.length_eq]

theorem assocGet_append_eq_none {κ β : Type} [DecidableEq κ] {m₁ m₂ : List (κ × β)} {k : κ} :
    assocGet (m₁ ++ m₂) k = none ↔ assocGet m₁ k = none ∧ assocGet m₂ k = none := by
  rw [assocGet_append]
  cases h : assocGet m₁ k <;> simp

theorem cellBindings_cons (x : Cell) (l : List Cell) :
    cellBindings (x :: l) = (x.id, x) :: cellBindings l := by
  simp [cellBindings]

theorem addLoop_spec (pt : Option AddOptions) (lo : LocalOptions) (sortable : Bool)
    (cmp : Option Comparator) (l : List Cell) :
    ∀ (c : Collection),
      (addLoop pt lo sortable cmp c l).state.cells = c.cells ∧
      (addLoop pt lo sortable cmp c l).state.length = c.length ∧
      (addLoop pt lo sortable cmp c l).state.comparator = c.comparator ∧
      (addLoop pt lo sortable cmp c l).state.map
        = c.map ++ cellBindings (addLoop pt lo sortable cmp c l).added ∧
      (((addLoop pt lo sortable cmp c l).added.map Cell.id)).Nodup ∧
      (∀ x ∈ (addLoop pt lo sortable cmp c l).added, assocGet c.map x.id = none) ∧
      (addLoop pt lo sortable cmp c l).added.Sublist l := by
  induction l with
  | nil =>
    intro c
    simp [addLoop, cellBindings]
  | cons cell rest ih =>
    intro c
    cases hg : c.get cell.id with
    | some existing =>
      by_cases hif : lo.merge = true ∧ cell.store ≠ existing.store
      · simp only [addLoop, hg]
        rw [if_pos hif]
        obtain ⟨h1, h2, h3, h4, h5, h6, h7⟩ := ih _
        exact ⟨h1, h2, h3, h4, h5, h6, h7.cons cell⟩
      · simp only [addLoop, hg]
        rw [if_neg hif]
        obtain ⟨h1, h2, h3, h4, h5, h6, h7⟩ := ih c
        exact ⟨h1, h2, h3, h4, h5, h6, h7.cons cell⟩
    | none =>
      have hnone : assocGet c.map cell.id = none := hg
      have hset : assocSet c.map cell.id cell = c.map ++ [(cell.id, cell)] :=
        assocSet_of_absent cell hnone
      simp only [addLoop, hg]
      obtain ⟨h1, h2, h3, h4, h5, h6, h7⟩ :=
        ih { c with map := assocSet c.map cell.id cell }
      refine ⟨h1, h2, h3, ?_, ?_, ?_, h7.cons₂ cell⟩
      · rw [h4]
        show assocSet c.map cell.id cell ++ _ = _
        rw [hset, cellBindings_cons, List.append_assoc]
        rfl
      · rw [List.map_cons, List.nodup_cons]
        constructor
        · intro hmem
          rcases List.mem_map.mp hmem with ⟨x, hx, hxid⟩
          have := h6 x hx
          show False
          have hx' : assocGet (c.map ++ [(cell.id, cell)]) x.id = none := by
            rw [← hset]; exact this
          rcases assocGet_append_eq_none.mp hx' with ⟨_, hx2⟩
          rw [hxid] at hx2
          simp [assocGet] at hx2
        · exact h5
      · intro x hx
        rcases List.mem_cons.mp hx with hx' | hx'
        · rw [hx']; exact hnone
        · have := h6 x hx'
          have hx'' : assocGet (c.map ++ [(cell.id, cell)]) x.id = none := by
            rw [← hset]; exact this
          exact (assocGet_append_eq_none.mp hx'').1

theorem addLoopRun_spec (c : Collection) (inputs : List Cell) (arg : AddArg) :
    (addLoopRun c inputs arg).state.cells = c.cells ∧
    (addLoopRun c inputs arg).state.length = c.length ∧
    (addLoopRun c inputs arg).state.comparator = c.comparator ∧
    (addLoopRun c inputs arg).state.map
      = c.map ++ cellBindings (addLoopRun c inputs arg).added ∧
    ((addLoopRun c inputs arg).added.map Cell.id).Nodup ∧
    (∀ x ∈ (addLoopRun c inputs arg).added, assocGet c.map x.id = none) ∧
    (addLoopRun c inputs arg).added.Sublist inputs :=
  addLoop_spec _ _ _ _ inputs c

theorem inv_keys_perm {c : Collection} (h : c.Inv) :
    (c.map.map Prod.fst).Perm (c.cells.map Cell.id) := by
  have := h.2.1.map Prod.fst
  rwa [cellBindings_map_fst] at this

theorem addSplice_inv {c : Collection} (h : c.Inv) (inputs : List Cell) (arg : AddArg) :
    (addSplice c inputs arg).Inv := by
  obtain ⟨h1, h2, h3, h4, h5, h6, h7⟩ := addLoopRun_spec c inputs arg
  unfold addSplice
  by_cases hadd : (addLoopRun c inputs arg).added = []
  · rw [if_pos hadd]
    refine ⟨?_, ?_, ?_⟩
    · rw [h1]; exact h.1
    · rw [h4, hadd, h1]
      simpa [cellBindings] using h.2.1
    · rw [h2, h1, h.2.2]
  · rw [if_neg hadd]
    have hperm : (spliceInsert (addLoopRun c inputs arg).state.cells
        (resolveAddIndex c.length arg) (addLoopRun c inputs arg).added).Perm
        ((addLoopRun c inputs arg).added ++ c.cells) := by
      rw [h1]
      exact spliceInsert_perm c.cells (resolveAddIndex c.length arg)
        (addLoopRun c inputs arg).added
    have hdisj : ∀ i ∈ (addLoopRun c inputs arg).added.map Cell.id,
        i ∉ c.cells.map Cell.id := by
      intro i hi hic
      rcases List.mem_map.mp hi with ⟨x, hx, hxi⟩
      have hxn : x.id ∉ c.map.map Prod.fst := (assocGet_eq_none _ _).mp (h6 x hx)
      apply hxn
      apply (inv_keys_perm h).mem_iff.mpr
      rw [hxi]
      exact hic
    refine ⟨?_, ?_, ?_⟩
    · have hnd : (((addLoopRun c inputs arg).added ++ c.cells).map Cell.id).Nodup := by
        rw [List.map_append, List.nodup_append]
        exact ⟨h5, h.1, fun i hi => hdisj i hi⟩
      exact ((hperm.map Cell.id).nodup_iff).mpr hnd
    · show (addLoopRun c inputs arg).state.map.Perm _
      rw [h4]
      have s1 : (c.map ++ cellBindings (addLoopRun c inputs arg).added).Perm
          (cellBindings c.cells ++ cellBindings (addLoopRun c inputs arg).added) :=
        h.2.1.append_right _
      have s2 : (cellBindings c.cells ++ cellBindings (addLoopRun c inputs arg).added).Perm
          (cellBindings (addLoopRun c inputs arg).added ++ cellBindings c.cells) :=
        List.perm_append_comm
      have s4 : (cellBindings ((addLoopRun c inputs arg).added ++ c.cells)).Perm
          (cellBindings (spliceInsert (addLoopRun c inputs arg).state.cells
            (resolveAddIndex c.length arg) (addLoopRun c inputs arg).added)) := by
        unfold cellBindings
        exact (hperm.map _).symm
      have s5 : (cellBindings (addLoopRun c inputs arg).added ++ cellBindings c.cells).Perm
          (cellBindings (spliceInsert (addLoopRun c inputs arg).state.cells
            (resolveAddIndex c.length arg) (addLoopRun c inputs arg).added)) := by
        rw [← cellBindings_append]
        exact s4
      exact (s1.trans s2).trans s5
    · rfl

theorem add_inv {c : Collection} (h : c.Inv) (inputs : List Cell) (arg : AddArg) :
    ((c.add inputs arg).1).Inv := by
  unfold Collection.add
  dsimp only
  split
  · exact sort_inv (addSplice_inv h inputs arg) _
  · exact addSplice_inv h inputs arg

theorem removeCells_inv (opts : RemoveOptions) (l : List (Option Cell)) :
    ∀ {c : Collection}, c.Inv → ((Collection.removeCells opts c l).1).Inv := by
  induction l with
  | nil =>
    intro c h
    simpa [Collection.removeCells] using h
  | cons x xs ih =>
    intro c h
    cases hg : c.getObj x with
    | none =>
      simp only [Collection.removeCells, hg]
      exact ih h
    | some cell =>
      have hcell : cell ∈ c.cells := by
        cases x with
        | none => simp [Collection.getObj] at hg
        | some y => exact ((inv_get_iff h y.id cell).mp hg).1
      obtain ⟨hge0, hlt, hget⟩ := indexOfCell_spec hcell
      have hsplice : spliceRemove c.cells (indexOfCell cell c.cells)
          = c.cells.take (indexOfCell cell c.cells).toNat
            ++ c.cells.drop ((indexOfCell cell c.cells).toNat + 1) :=
        spliceRemove_of_found hge0 hlt
      have hperm : (cell :: spliceRemove c.cells (indexOfCell cell c.cells)).Perm c.cells := by
        rw [hsplice]
        exact cons_splice_perm hget
      have hnodup2 : ((spliceRemove c.cells (indexOfCell cell c.cells)).map Cell.id).Nodup ∧
          cell.id ∉ (spliceRemove c.cells (indexOfCell cell c.cells)).map Cell.id := by
        have hh : ((cell :: spliceRemove c.cells (indexOfCell cell c.cells)).map Cell.id).Nodup :=
          ((hperm.map Cell.id).nodup_iff).mpr h.1
        rw [List.map_cons, List.nodup_cons] at hh
        exact ⟨hh.2, hh.1⟩
      have hinv' : Collection.Inv
          { c with cells := spliceRemove c.cells (indexOfCell cell c.cells)
                   length := c.length - 1
                   map := assocDelete c.map cell.id } := by
        refine ⟨hnodup2.1, ?_, ?_⟩
        · show (assocDelete c.map cell.id).Perm
            (cellBindings (spliceRemove c.cells (indexOfCell cell c.cells)))
          have p1 : (assocDelete c.map cell.id).Perm
              ((cellBindings c.cells).filter (fun pr => decide (pr.1 ≠ cell.id))) :=
            h.2.1.filter _
          have p2 : ((cellBindings c.cells).filter (fun pr => decide (pr.1 ≠ cell.id))).Perm
              ((cellBindings (cell :: spliceRemove c.cells (indexOfCell cell c.cells))).filter
                (fun pr => decide (pr.1 ≠ cell.id))) := by
            refine List.Perm.filter _ ?_
            unfold cellBindings
            exact (hperm.map _).symm
          have p3 : (cellBindings (cell :: spliceRemove c.cells (indexOfCell cell c.cells))).filter
                (fun pr => decide (pr.1 ≠ cell.id))
              = cellBindings (spliceRemove c.cells (indexOfCell cell c.cells)) := by
            rw [cellBindings_cons, List.filter_cons, if_neg (by simp)]
            refine List.filter_eq_self.mpr ?_
            intro p hp
            rcases List.mem_map.mp hp with ⟨z, hz, hzp⟩
            have hzne : z.id ≠ cell.id := by
              intro he
              exact hnodup2.2 (he ▸ List.mem_map_of_mem Cell.id hz)
            rw [← hzp]
            simpa using hzne
          exact (p1.trans p2).trans (p3 ▸ List.Perm.refl _)
        · show c.length - 1 = _
          have hlen2 : (spliceRemove c.cells (indexOfCell cell c.cells)).length + 1
              = c.cells.length := by
            have hl := hperm.length_eq
            simpa using hl
          rw [h.2.2, ← hlen2]
          push_cast
          ring
      simp only [Collection.removeCells, hg]
      exact ih hinv'

theorem remove_inv {c : Collection} (h : c.Inv) (x : Option Cell) (opts : RemoveOptions) :
    ((c.remove x opts).1).Inv :=
  removeCells_inv opts [x] h

theorem removeMany_inv {c : Collection} (h : c.Inv) (xs : List Cell) (opts : RemoveOptions) :
    ((c.removeMany xs opts).1).Inv :=
  removeCells_inv opts (xs.map some) h

theorem reset_inv {c : Collection} (cells : List Cell) (opts : SetOptions) :
    ((c.reset cells opts).1).Inv := by
  unfold Collection.reset
  dsimp only
  apply add_inv
  exact ⟨List.nodup_nil, by simp [cellBindings], by simp⟩

theorem mkCollection_inv (cells : List Cell) (cmp : Option Comparator)
    (heap : List (Nat × Store)) : (mkCollection cells cmp heap).Inv := by
  unfold mkCollection
  exact reset_inv cells ⟨some true⟩

theorem applyOp_inv {c : Collection} (h : c.Inv) (op : Op) : (applyOp c op).Inv := by
  cases op with
  | addMany cells arg => exact add_inv h cells arg
  | removeOne cell opts => exact remove_inv h cell opts
  | removeMany cells opts => exact removeMany_inv h cells opts
  | resetTo cells opts => exact reset_inv cells opts
  | pushOp cell opts => exact add_inv h [cell] _
  | popOp opts => exact remove_inv h _ opts
  | unshiftOp cell opts => exact add_inv h [cell] _
  | shiftOp opts => exact remove_inv h _ opts
  | sortOp opts => exact sort_inv h opts

theorem runOps_inv {c : Collection} (h : c.Inv) (ops : List Op) : (runOps c ops).Inv := by
  induction ops generalizing c with
  | nil => exact h
  | cons op rest ih => exact ih (applyOp_inv h op)

/-! ### Claim theorems -/

/-- C1: for every sequence of public operations (add, remove, reset, push,
pop, unshift, shift, sort) run from a freshly constructed collection, after
each operation returns the id-to-entity map and the cells sequence are in
exact bijection: no two entities in `cells` share an id, `map[id]` resolves
to an entity exactly when that entity is present in `cells` with that id,
and the cached `length` equals both the length of `cells` and the size of
`map`. (Quantifying over all operation sequences covers the state after
every intermediate operation.) -/
theorem collection_bijection_invariant (cells0 : List Cell) (cmp : Option Comparator)
    (heap0 : List (Nat × Store)) (ops : List Op) :
    ((runOps (mkCollection cells0 cmp heap0) ops).cells.map Cell.id).Nodup ∧
    (∀ id e, (runOps (mkCollection cells0 cmp heap0) ops).get id = some e ↔
      (e ∈ (runOps (mkCollection cells0 cmp heap0) ops).cells ∧ e.id = id)) ∧
    (runOps (mkCollection cells0 cmp heap0) ops).length
      = ((runOps (mkCollection cells0 cmp heap0) ops).cells.length : Int) ∧
    (runOps (mkCollection cells0 cmp heap0) ops).map.length
      = (runOps (mkCollection cells0 cmp heap0) ops).cells.length := by
  have h := runOps_inv (mkCollection_inv cells0 cmp heap0) ops
  refine ⟨h.1, fun id e => inv_get_iff h id e, h.2.2, ?_⟩
  rw [h.2.1.length_eq, cellBindings_length]

/-- C4: adding an entity whose id is already present, without the merge
option, is a complete no-op: the collection is unchanged (no duplicate, no
index change, length unchanged) and no event fires. -/
theorem add_existing_no_merge_noop (c : Collection) (cell e : Cell) (arg : AddArg)
    (hpresent : c.get cell.id = some e)
    (hmerge : arg.localOptions.merge = false) :
    c.add [cell] arg = (c, []) := by
  have hloop : addLoopRun c [cell] arg = ⟨c, [], [], false⟩ := by
    unfold addLoopRun addLoop
    rw [hpresent]
    dsimp only
    rw [if_neg (by simp [hmerge])]
    rfl
  have hflag : addSortFlag c [cell] arg = false := by
    unfold addSortFlag
    rw [hloop]
    simp
  have hsplice : addSplice c [cell] arg = c := by
    unfold addSplice
    rw [hloop]
    rfl
  have hevents : addEvents c [cell] arg = [] := by
    unfold addEvents
    rw [hloop, hflag]
    by_cases hs : arg.localOptions.silent <;> simp [hs]
  unfold Collection.add
  rw [hflag, hsplice, hevents]
  simp

/-- C4 witness: re-adding id `a` into the collection already holding it
leaves the collection and the event stream empty-handed. -/
theorem add_existing_no_merge_noop_witness :
    cAB.get "a" = some ⟨"a", 0⟩ ∧ cAB.add [⟨"a", 5⟩] (.noIndex none) = (cAB, []) :=
  ⟨by decide, add_existing_no_merge_noop cAB ⟨"a", 5⟩ ⟨"a", 0⟩ (.noIndex none) (by decide) rfl⟩

/-- C7: `at` with a negative index wraps by `length`, so `at(-1)` is
`last()` and `at(-length)` is `first()`; any index out of range after
wrapping yields `null` (the total function returns `none`, never throwing). -/
theorem at_negative_indexing (c : Collection) (h : c.length = (c.cells.length : Int)) :
    c.atIndex (-1) = c.last ∧
    c.atIndex (-(c.length)) = c.first ∧
    (∀ i : Int,
      ((if i < 0 then i + c.length else i) < 0 ∨
        (c.cells.length : Int) ≤ (if i < 0 then i + c.length else i)) →
      c.atIndex i = none) := by
  refine ⟨rfl, ?_, ?_⟩
  · show c.atIndex (-(c.length)) = c.atIndex 0
    by_cases hl : c.length = 0
    · rw [hl]
      norm_num
    · have h1 : -(c.length) < 0 := by omega
      unfold Collection.atIndex
      rw [if_pos h1, neg_add_cancel]
      norm_num
  · intro i hi
    unfold Collection.atIndex
    by_cases hneg : (if i < 0 then i + c.length else i) < 0
    · simp only [hneg, if_true]
    · simp only [hneg, if_false]
      rcases hi with hi | hi
      · exact absurd hi hneg
      · apply List.get?_eq_none.mpr
        omega

/-- C7 witness: on the two-element collection, `at(-1)` is `last`,
`at(-2)` is `first`, and `at(5)` is `null`. -/
theorem at_negative_indexing_witness :
    cAB.atIndex (-1) = cAB.last ∧ cAB.atIndex (-(cAB.length)) = cAB.first ∧
      cAB.atIndex 5 = none := by
  have h := at_negative_indexing cAB (by decide)
  refine ⟨h.1, h.2.1, h.2.2 5 ?_⟩
  decide

/-- C10: on an empty collection, `pop()` and `shift()` are total no-ops: the
internal `at` lookup yields `null`, the remove path skips the absent entry,
the state is unchanged, no event fires, and the call returns `undefined`. -/
theorem pop_shift_empty (c : Collection) (opts : RemoveOptions)
    (hc : c.cells = []) (hl : c.length = 0) :
    c.pop opts = (c, [], none) ∧ c.shift opts = (c, [], none) := by
  have hat1 : c.atIndex (c.length - 1) = none := by
    unfold Collection.atIndex
    rw [hl]
    norm_num
  have hat0 : c.atIndex 0 = none := by
    unfold Collection.atIndex
    rw [hc]
    norm_num
  constructor
  · unfold Collection.pop
    rw [hat1]
    unfold Collection.remove Collection.removeCells
    simp [Collection.getObj, Collection.removeCells]
  · unfold Collection.shift
    rw [hat0]
    unfold Collection.remove Collection.removeCells
    simp [Collection.getObj, Collection.removeCells]

/-- C10 witness: `pop` and `shift` on the freshly constructed empty
collection return `undefined` with no events and no state change. -/
theorem pop_shift_empty_witness :
    cEmpty.pop ⟨none, none⟩ = (cEmpty, [], none) ∧
      cEmpty.shift ⟨none, none⟩ = (cEmpty, [], none) :=
  pop_shift_empty cEmpty ⟨none, none⟩ (by decide) (by decide)

theorem removeCells_removed_le (opts : RemoveOptions) (l : List (Option Cell)) :
    ∀ c : Collection, ((Collection.removeCells opts c l).2.2).length ≤ l.length := by
  induction l with
  | nil =>
    intro c
    simp [Collection.removeCells]
  | cons x xs ih =>
    intro c
    cases hg : c.getObj x with
    | none =>
      simp only [Collection.removeCells, hg, List.length_cons]
      exact le_trans (ih c) (Nat.le_succ _)
    | some cell =>
      simp only [Collection.removeCells, hg, List.length_cons]
      exact Nat.succ_le_succ (ih _)

/-- C8: `remove` skips input entries that are not present (no error: the
function is total and leaves the state untouched for them); a single-entity
call returns the removed entity, or `undefined` when it was absent, and a
list call returns the list of entities actually removed, which is never
longer than the input. -/
theorem remove_return_contract (c : Collection) (x : Cell) (xs : List Cell)
    (opts : RemoveOptions) :
    (c.getObj (some x) = none → c.remove (some x) opts = (c, [], none)) ∧
    (∀ e, c.getObj (some x) = some e → (c.remove (some x) opts).2.2 = some e) ∧
    (c.removeMany xs opts).2.2.length ≤ xs.length := by
  refine ⟨?_, ?_, ?_⟩
  · intro hg
    unfold Collection.remove Collection.removeCells
    rw [hg]
    simp [Collection.removeCells]
  · intro e hg
    unfold Collection.remove Collection.removeCells
    rw [hg]
    simp [Collection.removeCells]
  · have h := removeCells_removed_le opts (xs.map some) c
    rw [List.length_map] at h
    exact h

/-- C8 witness: removing absent `x` returns `undefined` and changes nothing;
removing present `a` returns it; a two-element list removal returns at most
two entities. -/
theorem remove_return_contract_witness :
    cAB.remove (some xCell) ⟨none, none⟩ = (cAB, [], none) ∧
    (cAB.remove (some aCell) ⟨none, none⟩).2.2 = some aCell ∧
    (cAB.removeMany [aCell, xCell] ⟨none, none⟩).2.2.length ≤ 2 := by
  refine ⟨(remove_return_contract cAB xCell [aCell, xCell] ⟨none, none⟩).1 (by decide),
    (remove_return_contract cAB aCell [aCell, xCell] ⟨none, none⟩).2.1 aCell (by decide),
    (remove_return_contract cAB aCell [aCell, xCell] ⟨none, none⟩).2.2⟩

/-- C6: for every non-silent `add` call, the emitted events are, in order:
one `add` event per newly inserted entity carrying that entity's resolved
position (`localIndex + i`), then a `sort` event exactly when a sort
occurred, then one aggregate `update` event exactly when anything was added
or merged, whose `added` array mirrors the input order (it is a sublist of
the input) and whose `removed` array is empty. -/
theorem add_event_protocol (c : Collection) (inputs : List Cell) (arg : AddArg)
    (hs : arg.localOptions.silent = false) :
    (c.add inputs arg).2 =
      ((addLoopRun c inputs arg).added.enum.map
        (fun p => Event.add p.2 (resolveAddIndex c.length arg + (p.1 : Int)) arg.localOptions))
      ++ (if addSortFlag c inputs arg then [Event.sort] else [])
      ++ (if (addLoopRun c inputs arg).added = [] ∧ (addLoopRun c inputs arg).merged = []
          then []
          else [Event.update (addLoopRun c inputs arg).added (addLoopRun c inputs arg).merged []]) ∧
    (addLoopRun c inputs arg).added.Sublist inputs := by
  constructor
  · show addEvents c inputs arg = _
    unfold addEvents
    rw [if_neg (by simp [hs])]
  · exact (addLoopRun_spec c inputs arg).2.2.2.2.2.2

/-- C6 witness: a non-silent two-entity `add` into the empty collection
fires `add a @0`, `add b @1`, then one `update` with `added = [a, b]` and
`removed = []`. -/
theorem add_event_protocol_witness :
    (cEmpty.add [aCell, bCell] (.noIndex (some ⟨none, some false, none⟩))).2
      = [Event.add aCell 0 ⟨false, false, none⟩, Event.add bCell 1 ⟨false, false, none⟩,
         Event.update [aCell, bCell] [] []] := by
  have h := add_event_protocol cEmpty [aCell, bCell]
    (.noIndex (some ⟨none, some false, none⟩)) rfl
  rw [h.1]
  decide

theorem sort_cells_eq {c : Collection} {cmp : Comparator} (hc : c.comparator = some cmp)
    (opts : SetOptions) :
    (c.sort opts).1.cells = stableSortB (cmpLe c.heap cmp) c.cells := by
  unfold Collection.sort
  rw [hc]
  rfl

/-- C9: `sort` is a no-op when no comparator is configured (state unchanged,
no event); with a single-key or multi-key comparator it performs a stable
ascending sort on the resolved property paths: the result is a permutation,
pairwise ordered by the lexicographic key comparison, and for every key
tuple the entities carrying it keep their relative pre-sort order (the
filtered subsequences coincide). -/
theorem sort_stable_ascending (c : Collection) (opts : SetOptions) :
    (c.comparator = none → c.sort opts = (c, [])) ∧
    (∀ ks, c.comparator = some (.byKeys ks) →
      ((c.sort opts).1.cells.Perm c.cells ∧
        (c.sort opts).1.cells.Pairwise
          (fun a b => lexLe (cellKeys c.heap ks a) (cellKeys c.heap ks b) = true) ∧
        (∀ t : List Int, (c.sort opts).1.cells.filter
            (fun x => cellKeys c.heap ks x == t)
          = c.cells.filter (fun x => cellKeys c.heap ks x == t)))) ∧
    (∀ k, c.comparator = some (.byKey k) →
      ((c.sort opts).1.cells.Perm c.cells ∧
        (c.sort opts).1.cells.Pairwise
          (fun a b => lexLe (cellKeys c.heap [k] a) (cellKeys c.heap [k] b) = true) ∧
        (∀ t : List Int, (c.sort opts).1.cells.filter
            (fun x => cellKeys c.heap [k] x == t)
          = c.cells.filter (fun x => cellKeys c.heap [k] x == t)))) := by
  refine ⟨?_, ?_, ?_⟩
  · intro hc
    unfold Collection.sort
    rw [hc]
  · intro ks hc
    rw [sort_cells_eq hc opts]
    refine ⟨stableSortB_perm _ _, ?_, ?_⟩
    · exact @stableSortB_pairwise Cell
        (fun a b => lexLe (cellKeys c.heap ks a) (cellKeys c.heap ks b))
        (fun a b => lexLe_total (cellKeys c.heap ks a) (cellKeys c.heap ks b))
        (fun a b d hab hbd => lexLe_trans hab hbd)
        c.cells
    · intro t
      refine stableSortB_filter ?_ c.cells
      intro y z hy hz
      have hy' : cellKeys c.heap ks y = t := by simpa using hy
      have hz' : cellKeys c.heap ks z = t := by simpa using hz
      show lexLe _ _ = true
      rw [hy', hz']
      exact lexLe_refl t
  · intro k hc
    rw [sort_cells_eq hc opts]
    refine ⟨stableSortB_perm _ _, ?_, ?_⟩
    · exact @stableSortB_pairwise Cell
        (fun a b => lexLe (cellKeys c.heap [k] a) (cellKeys c.heap [k] b))
        (fun a b => lexLe_total (cellKeys c.heap [k] a) (cellKeys c.heap [k] b))
        (fun a b d hab hbd => lexLe_trans hab hbd)
        c.cells
    · intro t
      refine stableSortB_filter ?_ c.cells
      intro y z hy hz
      have hy' : cellKeys c.heap [k] y = t := by simpa using hy
      have hz' : cellKeys c.heap [k] z = t := by simpa using hz
      show lexLe _ _ = true
      rw [hy', hz']
      exact lexLe_refl t

/-- C9 witness: on the `z`-keyed collection with a key tie between `b` and
`x`, sorting keeps `b` before `x` (the filtered tie subsequence is
unchanged) and produces the ascending order `[b, x, a]`. -/
theorem sort_stable_ascending_witness :
    cZ.comparator = some (.byKey "z") ∧
    ((cZ.sort ⟨none⟩).1.cells.filter (fun x => cellKeys cZ.heap ["z"] x == [1])
      = cZ.cells.filter (fun x => cellKeys cZ.heap ["z"] x == [1])) ∧
    (cZ.sort ⟨none⟩).1.cells = [bCell, xCell, aCell] := by
  have h := (sort_stable_ascending cZ ⟨none⟩).2.2 "z" rfl
  refine ⟨rfl, h.2.2 [1], by decide⟩

/-- C5 counterexample: on the two-element collection `[a, b]`, `add` at
index `-1` resolves the position to `length` and appends the new entity
AFTER the last element, not before it as the claim states. -/
theorem add_negative_index_counterexample :
    (cAB.add [xCell] (.withIndex (-1) none)).1.cells = [aCell, bCell, xCell] ∧
    (cAB.add [xCell] (.withIndex (-1) none)).1.cells ≠ [aCell, xCell, bCell] := by
  constructor
  · decide
  · decide

/-- C5 amended: for an absent entity added with an explicit index, the
effective insertion position `p` always lands in `[0, length]`; a
nonnegative index is clamped to `length` from above; a negative index is
interpreted relative to `length + 1`, so index `-1` resolves to `length`
and appends AFTER the last element (index `-2` inserts before it); a
position that is still negative is pushed back into range by the splice.
When the index is omitted (and no comparator reorders afterwards), the
entity is appended at position `length`. -/
theorem add_index_resolution (c : Collection) (e : Cell) (i : Int) (opts : Option AddOptions)
    (hlen : c.length = (c.cells.length : Int))
    (habs : c.get e.id = none) :
    (∃ p : Nat, p ≤ c.cells.length ∧
      (c.add [e] (.withIndex i opts)).1.cells
        = c.cells.take p ++ e :: c.cells.drop p ∧
      (0 ≤ i → p = min i.toNat c.cells.length) ∧
      (i = -1 → p = c.cells.length) ∧
      (i < 0 → -((c.cells.length : Int) + 1) ≤ i → p = (i + c.cells.length + 1).toNat)) ∧
    (c.comparator = none → (c.add [e] (.noIndex none)).1.cells = c.cells ++ [e]) := by
  have hloopW : addLoopRun c [e] (.withIndex i opts)
      = ⟨{ c with map := assocSet c.map e.id e }, [e], [], false⟩ := by
    unfold addLoopRun addLoop
    rw [habs]
    dsimp only
    rfl
  constructor
  · have hflag : addSortFlag c [e] (.withIndex i opts) = false := by
      unfold addSortFlag
      rw [hloopW]
      simp [addSortable, AddArg.indexIsNull]
    have hcells : (c.add [e] (.withIndex i opts)).1.cells
        = spliceInsert c.cells (resolveAddIndex c.length (.withIndex i opts)) [e] := by
      unfold Collection.add
      rw [hflag]
      dsimp only
      unfold addSplice
      rw [hloopW]
      simp
    refine ⟨spliceStart c.cells.length (resolveAddIndex c.length (.withIndex i opts)),
      ?_, ?_, ?_, ?_, ?_⟩
    · unfold spliceStart
      split <;> omega
    · rw [hcells]
      unfold spliceInsert
      rfl
    · intro hi
      rw [hlen]
      unfold resolveAddIndex AddArg.rawIndex spliceStart
      dsimp only
      split_ifs <;> omega
    · intro hi
      subst hi
      rw [hlen]
      unfold resolveAddIndex AddArg.rawIndex spliceStart
      dsimp only
      split_ifs <;> omega
    · intro hi hge
      rw [hlen]
      unfold resolveAddIndex AddArg.rawIndex spliceStart
      dsimp only
      split_ifs <;> omega
  · intro hcmp
    have hloopN : addLoopRun c [e] (.noIndex none)
        = ⟨{ c with map := assocSet c.map e.id e }, [e], [], false⟩ := by
      unfold addLoopRun addLoop
      rw [habs]
      dsimp only
      rfl
    have hflag : addSortFlag c [e] (.noIndex none) = false := by
      unfold addSortFlag
      rw [hloopN]
      simp [addSortable, hcmp]
    have hcells : (c.add [e] (.noIndex none)).1.cells
        = spliceInsert c.cells (resolveAddIndex c.length (.noIndex none)) [e] := by
      unfold Collection.add
      rw [hflag]
      dsimp only
      unfold addSplice
      rw [hloopN]
      simp
    rw [hcells]
    have hres : resolveAddIndex c.length (.noIndex none) = (c.cells.length : Int) := by
      unfold resolveAddIndex AddArg.rawIndex
      rw [hlen]
      dsimp only
      rw [if_neg (by omega)]
      rw [if_neg (by omega)]
    rw [hres]
    unfold spliceInsert spliceStart
    rw [if_neg (by omega)]
    rw [min_eq_left (by omega)]
    rw [Int.toNat_ofNat]
    rw [List.take_length, List.drop_length]
    rfl

/-- C5 witness: on `[a, b]`, index `-1` resolves to position 2 (append after
`b`), and an omitted index also appends. -/
theorem add_index_resolution_witness :
    (cAB.add [xCell] (.withIndex (-1) none)).1.cells = [aCell, bCell, xCell] ∧
    (cAB.add [xCell] (.noIndex none)).1.cells = [aCell, bCell, xCell] := by
  have h := add_index_resolution cAB xCell (-1) none (by decide) (by decide)
  obtain ⟨p, hple, hcells, _, hneg1, _⟩ := h.1
  have hp : p = 2 := by
    have h2 := hneg1 rfl
    rw [h2]
    decide
  rw [hp] at hcells
  constructor
  · rw [hcells]
    decide
  · have h2 := h.2 rfl
    rw [h2]
    decide

theorem assocGet_assocSet_self {κ β : Type} [DecidableEq κ] (m : List (κ × β)) (k : κ) (v : β) :
    assocGet (assocSet m k v) k = some v := by
  induction m with
  | nil => simp [assocSet, assocGet]
  | cons p rest ih =>
    by_cases hp : p.1 = k
    · simp [assocSet, hp, assocGet]
    · simp [assocSet, hp, assocGet, ih]

/-- C3 counterexample: merging by re-adding id `a` with `merge: true` passed
in the options-as-second-argument call shape does happen, but the `store.set`
call receives NO options (the raw third parameter is `undefined`), not the
caller's pass-through options as the claim states. -/
theorem merge_options_forwarding_counterexample :
    ((cA.add [⟨"a", 1⟩] (.noIndex (some mOpts))).1.setLog.map SetCall.options = [none]) ∧
    ((none : Option AddOptions) ≠ some mOpts) := by
  constructor
  · decide
  · decide

/-- C3 amended: re-adding an existing id with the merge option set and a
distinct incoming store overwrites the existing entity's store data in place
with the incoming store's full data, records the existing entity in `merged`
(not `added`) of the single `update` event, and leaves `length` unchanged;
the options forwarded to the store set are the raw third parameter of `add`:
the caller's options in the explicit-index call shape, and `none`
(`undefined`) when the options were passed in place of the index. -/
theorem add_merge_semantics (c : Collection) (inc e : Cell) (arg : AddArg)
    (hpresent : c.get inc.id = some e)
    (hmerge : arg.localOptions.merge = true)
    (hstore : inc.store ≠ e.store) :
    (heapGetD (c.add [inc] arg).1.heap e.store).data = (heapGetD c.heap inc.store).data ∧
    (c.add [inc] arg).1.length = c.length ∧
    (c.add [inc] arg).1.setLog
      = c.setLog ++ [⟨e.store, (heapGetD c.heap inc.store).data, arg.passThrough⟩] ∧
    (arg.localOptions.silent = false →
      ∃ b : Bool, (c.add [inc] arg).2
        = (if b then [Event.sort] else []) ++ [Event.update [] [e] []]) := by
  have hloop : addLoopRun c [inc] arg
      = ⟨{ c with
            heap := assocSet c.heap e.store
              ((heapGetD c.heap e.store).setAll (heapGetD c.heap inc.store).data)
            setLog := c.setLog
              ++ [⟨e.store, (heapGetD c.heap inc.store).data, arg.passThrough⟩] },
          [], [e],
          (addSortable c arg && hasChangedCmp
            ((heapGetD c.heap e.store).setAll (heapGetD c.heap inc.store).data)
            c.comparator) || false⟩ := by
    unfold addLoopRun addLoop
    rw [hpresent]
    dsimp only
    rw [if_pos ⟨hmerge, hstore⟩]
    rfl
  have hsplice : addSplice c [inc] arg
      = { c with
            heap := assocSet c.heap e.store
              ((heapGetD c.heap e.store).setAll (heapGetD c.heap inc.store).data)
            setLog := c.setLog
              ++ [⟨e.store, (heapGetD c.heap inc.store).data, arg.passThrough⟩] } := by
    unfold addSplice
    rw [hloop]
    rfl
  have hheap : (c.add [inc] arg).1.heap
      = assocSet c.heap e.store
          ((heapGetD c.heap e.store).setAll (heapGetD c.heap inc.store).data) := by
    unfold Collection.add
    dsimp only
    split
    · rw [(sort_fst_fields (addSplice c [inc] arg) ⟨some true⟩).1.2.2.2.1, hsplice]
    · rw [hsplice]
  refine ⟨?_, ?_, ?_, ?_⟩
  · rw [hheap]
    unfold heapGetD
    rw [assocGet_assocSet_self]
    rfl
  · unfold Collection.add
    dsimp only
    split
    · rw [(sort_fst_fields (addSplice c [inc] arg) ⟨some true⟩).1.2.1, hsplice]
    · rw [hsplice]
  · unfold Collection.add
    dsimp only
    split
    · rw [(sort_fst_fields (addSplice c [inc] arg) ⟨some true⟩).1.2.2.2.2, hsplice]
    · rw [hsplice]
  · intro hsil
    refine ⟨addSortFlag c [inc] arg, ?_⟩
    show addEvents c [inc] arg = _
    unfold addEvents
    rw [if_neg (by simp [hsil])]
    rw [hloop]
    simp

/-- C3 amended witness: merging in the explicit-index call shape forwards
the caller's options to the store set, overwrites the existing store's data
with the incoming data, and leaves `length` unchanged. -/
theorem add_merge_semantics_witness :
    (heapGetD (cA.add [⟨"a", 1⟩] (.withIndex 0 (some mOpts))).1.heap 0).data = [("k", 2)] ∧
    (cA.add [⟨"a", 1⟩] (.withIndex 0 (some mOpts))).1.setLog
      = [⟨0, [("k", 2)], some mOpts⟩] ∧
    (cA.add [⟨"a", 1⟩] (.withIndex 0 (some mOpts))).1.length = cA.length := by
  have h := add_merge_semantics cA ⟨"a", 1⟩ aCell (.withIndex 0 (some mOpts))
    (by decide) (by decide) (by decide)
  exact ⟨h.1.trans (by decide), h.2.2.1.trans (by decide), h.2.1⟩

theorem addLoop_sortFlag_false (pt : Option AddOptions) (lo : LocalOptions)
    (cmp : Option Comparator) (l : List Cell) :
    ∀ c : Collection, (addLoop pt lo false cmp c l).sortFlag = false := by
  induction l with
  | nil => intro c; rfl
  | cons cell rest ih =>
    intro c
    cases hg : c.get cell.id with
    | some existing =>
      by_cases hif : lo.merge = true ∧ cell.store ≠ existing.store
      · simp only [addLoop, hg]
        rw [if_pos hif]
        simp [ih]
      · simp only [addLoop, hg]
        rw [if_neg hif]
        exact ih c
    | none =>
      simp only [addLoop, hg]
      exact ih _

theorem addEvents_no_reset (c : Collection) (inputs : List Cell) (arg : AddArg) :
    (addEvents c inputs arg).countP Event.isReset = 0 := by
  unfold addEvents
  by_cases hs : arg.localOptions.silent
  · rw [if_pos hs]
    rfl
  · rw [if_neg hs]
    simp only [List.countP_append]
    have h1 : ((addLoopRun c inputs arg).added.enum.map
        (fun p => Event.add p.2 (resolveAddIndex c.length arg + (p.1 : Int))
          arg.localOptions)).countP Event.isReset = 0 := by
      rw [List.countP_eq_zero]
      intro e he
      rcases List.mem_map.mp he with ⟨q, _, hq⟩
      rw [← hq]
      simp [Event.isReset]
    have h2 : (if addSortFlag c inputs arg = true then [Event.sort] else []).countP
        Event.isReset = 0 := by
      split <;> rfl
    have h3 : (if (addLoopRun c inputs arg).added = [] ∧ (addLoopRun c inputs arg).merged = []
        then ([] : List Event)
        else [Event.update (addLoopRun c inputs arg).added
          (addLoopRun c inputs arg).merged []]).countP Event.isReset = 0 := by
      split <;> rfl
    omega

theorem addEvents_no_sort_of_flag (c : Collection) (inputs : List Cell) (arg : AddArg)
    (hflag : addSortFlag c inputs arg = false) :
    (addEvents c inputs arg).countP Event.isSort = 0 := by
  unfold addEvents
  by_cases hs : arg.localOptions.silent
  · rw [if_pos hs]
    rfl
  · rw [if_neg hs]
    simp only [List.countP_append]
    have h1 : ((addLoopRun c inputs arg).added.enum.map
        (fun p => Event.add p.2 (resolveAddIndex c.length arg + (p.1 : Int))
          arg.localOptions)).countP Event.isSort = 0 := by
      rw [List.countP_eq_zero]
      intro e he
      rcases List.mem_map.mp he with ⟨q, _, hq⟩
      rw [← hq]
      simp [Event.isSort]
    have h2 : (if addSortFlag c inputs arg = true then [Event.sort] else []).countP
        Event.isSort = 0 := by
      rw [if_neg (by simp [hflag])]
      rfl
    have h3 : (if (addLoopRun c inputs arg).added = [] ∧ (addLoopRun c inputs arg).merged = []
        then ([] : List Event)
        else [Event.update (addLoopRun c inputs arg).added
          (addLoopRun c inputs arg).merged []]).countP Event.isSort = 0 := by
      split <;> rfl
    omega

/-- C2 counterexample: `reset` merges `silent: true` as a DEFAULT under the
caller's options, so `reset(cells, {silent: false})` pierces the "forced
silent" bulk insert: one `add` and one `update` event fire during the reset
(before the `reset` event), contradicting the claim that no `add`/`update`
events fire during a reset. -/
theorem reset_forced_silent_counterexample :
    ((cEmpty.reset [aCell] ⟨some false⟩).2.countP Event.isAdd = 1) ∧
    ((cEmpty.reset [aCell] ⟨some false⟩).2.countP Event.isUpdate = 1) ∧
    ((cEmpty.reset [aCell] ⟨some false⟩).2.countP Event.isReset = 1) := by
  refine ⟨?_, ?_, ?_⟩ <;> decide

theorem reset_events_eq (c : Collection) (cells : List Cell) (opts : SetOptions) :
    (c.reset cells opts).2
      = addEvents { c with length := 0, cells := [], map := [] } cells
          (.noIndex (some ⟨none, some (opts.silent.getD true), none⟩))
        ++ (if opts.silent.getD false then []
            else [Event.reset c.cells (c.reset cells opts).1.cells]) := rfl

/-- C2 amended: `reset` fires exactly one `reset` event (none when the
caller passed a truthy `silent`) whose `previous` field is the pre-call
sequence and whose `current` field is the post-call sequence; the internal
bulk re-insert is silent BY DEFAULT, so no `add`/`update` events fire unless
the caller explicitly passed `silent: false`; no `sort` event ever fires
during a reset. -/
theorem reset_event_contract (c : Collection) (cells : List Cell) (opts : SetOptions) :
    (opts.silent ≠ some false →
      (c.reset cells opts).2
        = if opts.silent = some true then []
          else [Event.reset c.cells (c.reset cells opts).1.cells]) ∧
    (c.reset cells opts).2.countP Event.isSort = 0 ∧
    (c.reset cells opts).2.countP Event.isReset
      = (if opts.silent.getD false then 0 else 1) := by
  have hsortable : ∀ (ao : AddOptions),
      addSortable { c with length := 0, cells := [], map := [] }
        (.noIndex (some ao)) = false := by
    intro ao
    simp [addSortable, AddArg.indexIsNull]
  have hflag : ∀ (ao : AddOptions),
      addSortFlag { c with length := 0, cells := [], map := [] } cells
        (.noIndex (some ao)) = false := by
    intro ao
    unfold addSortFlag addLoopRun
    rw [hsortable]
    rw [addLoop_sortFlag_false]
    simp
  refine ⟨?_, ?_, ?_⟩
  · intro hne
    rw [reset_events_eq]
    rcases hs : opts.silent with _ | b
    · simp only [Option.getD_none]
      have he : addEvents { c with length := 0, cells := [], map := [] } cells
          (.noIndex (some ⟨none, some true, none⟩)) = [] := rfl
      rw [he, if_neg (by simp), if_neg (by simp)]
      rfl
    · cases b with
      | false => exact absurd hs hne
      | true =>
        simp only [Option.getD_some]
        have he : addEvents { c with length := 0, cells := [], map := [] } cells
            (.noIndex (some ⟨none, some true, none⟩)) = [] := rfl
        rw [he, if_pos (by simp)]
        rfl
  · rw [reset_events_eq]
    rw [List.countP_append]
    have h1 := addEvents_no_sort_of_flag _ cells _
      (hflag ⟨none, some (opts.silent.getD true), none⟩)
    have h2 : (if opts.silent.getD false then ([] : List Event)
        else [Event.reset c.cells (c.reset cells opts).1.cells]).countP
        Event.isSort = 0 := by
      split <;> rfl
    omega
  · rw [reset_events_eq]
    rw [List.countP_append]
    have h1 := addEvents_no_reset { c with length := 0, cells := [], map := [] } cells
      (.noIndex (some ⟨none, some (opts.silent.getD true), none⟩))
    have h2 : (if opts.silent.getD false then ([] : List Event)
        else [Event.reset c.cells (c.reset cells opts).1.cells]).countP
        Event.isReset = (if opts.silent.getD false then 0 else 1) := by
      split <;> rfl
    omega

/-- C2 amended witness: a default (non-silent) reset fires exactly the one
`reset` event with the correct snapshots, and even an explicitly non-silent
reset fires no `sort` event. -/
theorem reset_event_contract_witness :
    (cEmpty.reset [aCell] ⟨none⟩).2 = [Event.reset [] [aCell]] ∧
    (cEmpty.reset [aCell] ⟨some false⟩).2.countP Event.isSort = 0 := by
  have h := (reset_event_contract cEmpty [aCell] ⟨none⟩).1 (by simp)
  constructor
  · rw [h]
    decide
  · exact (reset_event_contract cEmpty [aCell] ⟨some false⟩).2.1
